import Mathlib

/-!
Verification of `src/utils/android.rs`: the `AndroidManifest` reader and the
`dump_proguard_uuids_as_properties` merge operation.

The Rust code is shallowly embedded:
* the in-memory XML element tree (`elementtree::Element`) is modelled by the
  mutual inductives `XElem`/`XForest`, keeping a tag, a namespaced attribute
  list and children;
* the `HashMap<String, String>` of `java_properties` is modelled by an
  association list `Props`, observed only through `lookupProp` (extensional
  map semantics, matching `HashMap` lookup);
* file-system calls are modelled by explicit outcome records (`DumpWorld`,
  `SaveWorld`) and an effect trace (`FsEffect`), so that error propagation
  and the order of I/O operations are visible in the embedding.
-/

namespace SentryAndroid

/-! ## Properties maps (`java_properties` `HashMap<String, String>`) -/

/-- A properties mapping: the in-memory `HashMap<String, String>`, modelled as
an association list whose observable content is given by `lookupProp`. -/
abbrev Props := List (String × String)

/-- Map lookup: the value of the first entry with the given key, as in
`HashMap::get`.  Real `HashMap`s have no duplicate keys, so the first match is
the only one. -/
def lookupProp (m : Props) (k : String) : Option String :=
  (m.find? (fun kv => kv.1 = k)).map (fun kv => kv.2)

/-- Models `HashMap::insert`: afterwards `k` maps to `v` and every other key is
unchanged.  Modelled by prepending the new binding and dropping old bindings
of `k`. -/
def insertProp (m : Props) (k v : String) : Props :=
  (k, v) :: m.filter (fun kv => ¬ (kv.1 = k))

/-- The reserved key written by the merge operation
(`"io.sentry.ProguardUuids"` in `dump_proguard_uuids_as_properties`). -/
def proguardKey : String := "io.sentry.ProguardUuids"

/-- The merge step of `dump_proguard_uuids_as_properties`:
`props.insert("io.sentry.ProguardUuids", uuids.iter().map(to_string).join("|"))`.
The identifiers arrive already rendered as strings (`Uuid::to_string`). -/
def mergedProps (props : Props) (uuids : List String) : Props :=
  insertProp props proguardKey (String.intercalate "|" uuids)

/-- Modelled from the spec: `java_properties::write` is not part of this
repository; the spec requires a "deterministic round-trip write", so the
serialization is modelled canonically, one `key=value` line per key, keys in
sorted order.  Its output depends only on the extensional content of the map. -/
def serializeProps (m : Props) : String :=
  String.intercalate "\n"
    ((List.insertionSort (fun a b : String => a ≤ b) (m.map (fun kv => kv.1)).dedup).map
      (fun k => k ++ "=" ++ (lookupProp m k).getD ""))

/-! ## Package-name derivation (`AndroidManifest::name`) -/

/-- Models `str::rsplit('.')` (equivalently `split('.')` read from the right),
modelled on character lists: `splitDot l` is the list of dot-separated
segments of `l`, in left-to-right order.  It is never empty. -/
def splitDot : List Char → List (List Char)
  | [] => [[]]
  | c :: rest =>
    if c = '.' then [] :: splitDot rest
    else
      match splitDot rest with
      | [] => [[c]]
      | seg :: segs => (c :: seg) :: segs

/-- Models `rsplit('.').next().unwrap()`: the first segment from the right, i.e. the
last segment of `splitDot`.  The `.getD []` models the `unwrap`: the default
is dead code because `splitDot` never returns `[]`. -/
def lastDotSegment (l : List Char) : List Char :=
  ((splitDot l).getLast?).getD []

/-- The `chars().enumerate().map(...)` loop of `AndroidManifest::name`: the
character at index 0 is upper-cased, all others are lower-cased.
`Char.toUpper`/`Char.toLower` model Rust's `to_uppercase`/`to_lowercase`
(identical on ASCII; Rust's versions can expand some non-ASCII characters). -/
def titleCase (l : List Char) : List Char :=
  l.enum.map (fun ic => if ic.1 = 0 then ic.2.toUpper else ic.2.toLower)

/-- The pure core of `AndroidManifest::name`, applied to the value of the
`package` attribute (`none` when the attribute is absent). -/
def deriveName (pkg : Option String) : String :=
  String.mk (titleCase (lastDotSegment (pkg.getD "unknown").data))

/-! ### Spec-side formulation of the name derivation (for the refinement
claim about `name()`).  These definitions follow the spec's words, to be
compared with the source-derived `deriveName` above. -/

/-- Spec side: "split on `.` and take the last segment (the final
dot-delimited component)" — the longest dot-free suffix. -/
def specLastSegment (l : List Char) : List Char :=
  (l.reverse.takeWhile (fun c => ¬ (c = '.'))).reverse

/-- Spec side: "the first character is upper-cased, every subsequent
character is lower-cased". -/
def upperFirstLowerRest : List Char → List Char
  | [] => []
  | c :: cs => c.toUpper :: cs.map Char.toLower

/-- Spec side: "take the package string (or `"unknown"` if absent)", then the
final dot-delimited segment, then title-case it. -/
def specName (pkg : Option String) : String :=
  String.mk (upperFirstLowerRest (specLastSegment (pkg.getD "unknown").data))

/-! ## XML element trees (`elementtree::Element`) -/

/-- An attribute key: an optional namespace URI and a local name.
`get_attr("package")` uses `(none, "package")`;
`get_attr((ANDROID_NS, "versionCode"))` uses `(some ANDROID_NS, "versionCode")`. -/
abbrev AttrKey := Option String × String

mutual

/-- An in-memory XML element: tag, attributes and child elements
(`elementtree::Element`).  Text content is irrelevant to the accessors under
verification and is not modelled. -/
inductive XElem : Type where
  | mk (tag : String) (attrs : List (AttrKey × String)) (children : XForest)

/-- A list of sibling elements (the children of an element). -/
inductive XForest : Type where
  | nil
  | cons (head : XElem) (tail : XForest)

end

/-- The attribute list of an element. -/
def XElem.attrs : XElem → List (AttrKey × String)
  | .mk _ a _ => a

/-- The tag of an element. -/
def XElem.tag : XElem → String
  | .mk t _ _ => t

/-- The children of an element. -/
def XElem.children : XElem → XForest
  | .mk _ _ c => c

/-- Models `Element::get_attr`: the value of the attribute with the given
(namespace, local-name) key, if present. -/
def XElem.get_attr (e : XElem) (k : AttrKey) : Option String :=
  (e.attrs.find? (fun kv => kv.1 = k)).map (fun kv => kv.2)

/-- The constant `ANDROID_NS`: the Android platform attribute namespace. -/
def ANDROID_NS : String := "http://schemas.android.com/apk/res/android"

/-- A file path, modelled as its list of components. -/
abbrev FsPath := List String

/-- Models `Path::parent`: the path without its final component; `none` when there
is no final component to drop. -/
def FsPath.parent? (p : FsPath) : Option FsPath :=
  match p with
  | [] => none
  | _ :: _ => some p.dropLast

/-- The struct `AndroidManifest`: the path the manifest was loaded from and the parsed
root element. -/
structure AndroidManifest where
  path : FsPath
  root : XElem

/-- A manifest whose root element carries exactly an (optional) unqualified
`package` attribute: the test vehicle for the name-derivation examples. -/
def manifestWithPackage (pkg : Option String) : AndroidManifest :=
  { path := ["AndroidManifest.xml"],
    root := XElem.mk "manifest"
      (match pkg with
       | some s => [((none, "package"), s)]
       | none => []) XForest.nil }

/-- Models `AndroidManifest::package`: the unqualified `package` attribute of the
root element, or `"unknown"`. -/
def AndroidManifest.package (m : AndroidManifest) : String :=
  (m.root.get_attr (none, "package")).getD "unknown"

/-- Models `AndroidManifest::name`: the last dot-segment of the package identifier
(or of `"unknown"` when the attribute is absent), first character upper-cased
and the rest lower-cased. -/
def AndroidManifest.name (m : AndroidManifest) : String :=
  deriveName (m.root.get_attr (none, "package"))

/-- Models `AndroidManifest::version_code`: the platform-namespace `versionCode`
attribute, or `"0"`. -/
def AndroidManifest.version_code (m : AndroidManifest) : String :=
  (m.root.get_attr (some ANDROID_NS, "versionCode")).getD "0"

/-- Models `AndroidManifest::version_name`: the platform-namespace `versionName`
attribute, or `"0.0"`. -/
def AndroidManifest.version_name (m : AndroidManifest) : String :=
  (m.root.get_attr (some ANDROID_NS, "versionName")).getD "0.0"

/-! ## XML serialization (`Element::to_writer` / `Element::from_reader`)

Modelled from the spec: the `elementtree` serializer and parser are not part
of this repository.  The spec states that a save/reload round-trip may change
"structural XML formatting" but preserves attribute values, so the byte
stream is modelled at markup-token granularity: an opening tag carrying the
attributes, and a matching closing tag. -/

/-- One markup token of the serialized XML stream. -/
inductive XmlToken : Type where
  | start (tag : String) (attrs : List (AttrKey × String))
  | close
deriving DecidableEq

mutual

/-- Modelled from the spec: `Element::to_writer`, at token granularity. -/
def serElem : XElem → List XmlToken
  | .mk t a cs => XmlToken.start t a :: serForest cs ++ [XmlToken.close]

/-- Serialize a list of sibling elements. -/
def serForest : XForest → List XmlToken
  | .nil => []
  | .cons e rest => serElem e ++ serForest rest

end

mutual

/-- Modelled from the spec: `Element::from_reader`, at token granularity.
Fuel-indexed recursive-descent parsing of one element; returns the element
and the unconsumed tokens. -/
def parseElem : Nat → List XmlToken → Option (XElem × List XmlToken)
  | 0, _ => none
  | _ + 1, [] => none
  | n + 1, XmlToken.start t a :: rest =>
    match parseForest n rest with
    | some (cs, rest') => some (.mk t a cs, rest')
    | none => none
  | _ + 1, XmlToken.close :: _ => none

/-- Parse sibling elements up to (and consuming) the enclosing close token. -/
def parseForest : Nat → List XmlToken → Option (XForest × List XmlToken)
  | 0, _ => none
  | _ + 1, [] => none
  | _ + 1, XmlToken.close :: rest => some (.nil, rest)
  | n + 1, ts@(XmlToken.start _ _ :: _) =>
    match parseElem n ts with
    | some (e, rest) =>
      match parseForest n rest with
      | some (cs, rest') => some (.cons e cs, rest')
      | none => none
    | none => none

end

mutual

/-- Fuel bound for parsing one serialized element. -/
def sizeElem : XElem → Nat
  | .mk _ _ cs => 1 + sizeForest cs

/-- Fuel bound for parsing a serialized forest plus its close token. -/
def sizeForest : XForest → Nat
  | .nil => 1
  | .cons e rest => sizeElem e + sizeForest rest

end

/-- Parse a whole document: one root element consuming the entire stream. -/
def parseDoc (ts : List XmlToken) : Option XElem :=
  match parseElem (ts.length + 1) ts with
  | some (e, []) => some e
  | _ => none

/-- The manifest produced by `save()` followed by `from_path` on the same
path: serialize the in-memory root, then parse the written stream back. -/
def reloadAfterSave (m : AndroidManifest) : Option AndroidManifest :=
  (parseDoc (serElem m.root)).map (fun r => { path := m.path, root := r })

/-! ## File-system model

Each `std::fs` call made by the code is given its outcome by a "world"
record, and the calls actually performed are collected in an effect trace.
This makes error propagation and the order of I/O operations provable. -/

/-- Models `std::io::ErrorKind`, restricted to the distinctions the code makes. -/
inductive IOErrorKind : Type where
  | notFound
  | permissionDenied
  | other
deriving DecidableEq

/-- Modelled from the spec: the `errors::Error` type of this repository is
not under `src/`; the spec's error kinds are an I/O error (`IoError`), an
XML serialization failure, and a properties-persist failure wrapping a
message (`PersistError`). -/
inductive Error : Type where
  | ioError (kind : IOErrorKind)
  | xmlWriteError
  | persistError (msg : String)
deriving DecidableEq

/-- A file-system call performed by the code, in program order. -/
inductive FsEffect : Type where
  | openFile (path : FsPath)
  | createDirAll (path : FsPath)
  | createFile (path : FsPath)
  | writeProps (path : FsPath) (content : String)
  | writeXml (path : FsPath) (doc : List XmlToken)
deriving DecidableEq

/-- Outcomes of the file-system calls `dump_proguard_uuids_as_properties`
can make.  `openResult` is the combined outcome of `fs::File::open` and, on
success, `java_properties::read` of the opened file (`Except Unit Props`:
the parsed mapping, or a parse error). -/
structure DumpWorld where
  openResult : Except IOErrorKind (Except Unit Props)
  createDirResult : Except IOErrorKind Unit
  createFileResult : Except IOErrorKind Unit
  writeOk : Bool

/-- Outcomes of the file-system calls `AndroidManifest::save` can make. -/
structure SaveWorld where
  createFileResult : Except IOErrorKind Unit
  writeOk : Bool

/-- The prior mapping `dump_proguard_uuids_as_properties` proceeds with:
the parsed file on a clean read, and the empty mapping in every other case
(`unwrap_or_else(|_| HashMap::new())`, and the `NotFound` arm). -/
def loadedProps (w : DumpWorld) : Props :=
  match w.openResult with
  | .ok (.ok m) => m
  | _ => []

/-- The write phase of `dump_proguard_uuids_as_properties` (everything after
the properties file has been read): insert the joined identifiers under
`proguardKey`, `create_dir_all` the parent (when there is one), create the
file and write the mapping.  `effs` is the trace accumulated so far. -/
def dumpWritePhase (w : DumpWorld) (p : FsPath) (uuids : List String)
    (props : Props) (effs : List FsEffect) : Except Error Unit × List FsEffect :=
  let merged := mergedProps props uuids
  match p.parent? with
  | some par =>
    match w.createDirResult with
    | .error e => (.error (.ioError e), effs ++ [FsEffect.createDirAll par])
    | .ok _ =>
      let effs := effs ++ [FsEffect.createDirAll par, FsEffect.createFile p]
      match w.createFileResult with
      | .error e => (.error (.ioError e), effs)
      | .ok _ =>
        if w.writeOk then
          (.ok (), effs ++ [FsEffect.writeProps p (serializeProps merged)])
        else
          (.error (.persistError "Could not persist proguard UUID in properties file"), effs)
  | none =>
    let effs := effs ++ [FsEffect.createFile p]
    match w.createFileResult with
    | .error e => (.error (.ioError e), effs)
    | .ok _ =>
      if w.writeOk then
        (.ok (), effs ++ [FsEffect.writeProps p (serializeProps merged)])
      else
        (.error (.persistError "Could not persist proguard UUID in properties file"), effs)

/-- Models `dump_proguard_uuids_as_properties(p, uuids)`.  The `uuids` arrive
already rendered as strings (`Uuid::to_string`).  Returns the Rust result
and the trace of file-system calls performed. -/
def dump_proguard_uuids_as_properties (w : DumpWorld) (p : FsPath)
    (uuids : List String) : Except Error Unit × List FsEffect :=
  match w.openResult with
  | .ok parsed =>
    let props := match parsed with | .ok m => m | .error _ => []
    dumpWritePhase w p uuids props [FsEffect.openFile p]
  | .error err =>
    if err ≠ IOErrorKind.notFound then
      (.error (.ioError err), [FsEffect.openFile p])
    else
      dumpWritePhase w p uuids [] [FsEffect.openFile p]

/-- Models `AndroidManifest::save`: `fs::File::create(&self.path)` then
`self.root.to_writer(&mut f)`.  No directory creation takes place. -/
def AndroidManifest.save (w : SaveWorld) (m : AndroidManifest) :
    Except Error Unit × List FsEffect :=
  match w.createFileResult with
  | .error e => (.error (.ioError e), [FsEffect.createFile m.path])
  | .ok _ =>
    if w.writeOk then
      (.ok (), [FsEffect.createFile m.path, FsEffect.writeXml m.path (serElem m.root)])
    else
      (.error .xmlWriteError, [FsEffect.createFile m.path])

/-! ## Lemmas about properties maps -/

theorem lookupProp_insertProp_self (m : Props) (k v : String) :
    lookupProp (insertProp m k v) k = some v := by
  simp [lookupProp, insertProp, List.find?]

theorem find?_filter_ne (m : Props) (k k' : String) (h : k' ≠ k) :
    (m.filter (fun kv => ¬ (kv.1 = k))).find? (fun kv => kv.1 = k') =
      m.find? (fun kv => kv.1 = k') := by
  induction m with
  | nil => rfl
  | cons a t ih =>
    by_cases ha : a.1 = k
    · have hfind : ¬ ((fun kv : String × String => decide (kv.1 = k')) a = true) := by
        simp only [decide_eq_true_eq]
        intro hc
        exact h (hc ▸ ha)
      rw [List.filter_cons_of_neg (by simp [ha]), List.find?_cons_of_neg t hfind, ih]
    · rw [List.filter_cons_of_pos (by simp [ha])]
      by_cases hk' : a.1 = k'
      · rw [List.find?_cons_of_pos _ (by simp [hk']),
          List.find?_cons_of_pos t (by simp [hk'])]
      · rw [List.find?_cons_of_neg _ (by simp [hk']),
          List.find?_cons_of_neg t (by simp [hk']), ih]

theorem lookupProp_insertProp_other (m : Props) (k v k' : String) (h : k' ≠ k) :
    lookupProp (insertProp m k v) k' = lookupProp m k' := by
  have hk : ¬ ((fun kv : String × String => decide (kv.1 = k')) (k, v) = true) := by
    simp only [decide_eq_true_eq]
    exact fun hh => h hh.symm
  unfold lookupProp insertProp
  rw [List.find?_cons_of_neg (m.filter (fun kv => ¬ (kv.1 = k))) hk,
    find?_filter_ne m k k' h]

/-- C1 — For every prior mapping and ordered identifier list, the merged
mapping keeps every key of the prior mapping with its value unchanged,
except `"io.sentry.ProguardUuids"`, which is set to the identifiers joined
with `"|"` in the order given. -/
theorem mergedProps_sets_key_and_preserves_rest (props : Props) (uuids : List String) :
    lookupProp (mergedProps props uuids) proguardKey =
      some (String.intercalate "|" uuids) ∧
    ∀ k, k ≠ proguardKey →
      lookupProp (mergedProps props uuids) k = lookupProp props k := by
  constructor
  · exact lookupProp_insertProp_self props proguardKey _
  · intro k hk
    exact lookupProp_insertProp_other props proguardKey _ k hk

/-- C1 witness: a concrete prior mapping `foo=bar` merged with identifiers
`["a", "b"]` maps the reserved key to `"a|b"` and still maps `foo` to
`"bar"`. -/
theorem mergedProps_sets_key_and_preserves_rest_witness :
    lookupProp (mergedProps [("foo", "bar")] ["a", "b"]) proguardKey = some "a|b" ∧
    lookupProp (mergedProps [("foo", "bar")] ["a", "b"]) "foo" = some "bar" := by
  have h := mergedProps_sets_key_and_preserves_rest [("foo", "bar")] ["a", "b"]
  refine ⟨?_, ?_⟩
  · rw [h.1]; rfl
  · rw [h.2 "foo" (by decide)]; rfl

/-- C10 — Merging an empty identifier list still sets the reserved key:
it becomes the empty string (the pipe-join of the empty sequence),
overwriting any prior value. -/
theorem mergedProps_empty_uuids_sets_empty_string (props : Props) :
    lookupProp (mergedProps props []) proguardKey = some "" :=
  lookupProp_insertProp_self props proguardKey ""

/-! ## Manifest accessor defaults -/

/-- C3 — When the root element has no unqualified `package` attribute, no
platform-namespace `versionCode` attribute and no platform-namespace
`versionName` attribute, the accessors return the fixed defaults
`"unknown"`, `"0"` and `"0.0"`.  The accessors are total Lean functions, so
they have no failure mode. -/
theorem accessors_default_fallbacks (m : AndroidManifest)
    (hp : m.root.get_attr (none, "package") = none)
    (hc : m.root.get_attr (some ANDROID_NS, "versionCode") = none)
    (hn : m.root.get_attr (some ANDROID_NS, "versionName") = none) :
    m.package = "unknown" ∧ m.version_code = "0" ∧ m.version_name = "0.0" := by
  refine ⟨?_, ?_, ?_⟩
  · rw [AndroidManifest.package, hp]; rfl
  · rw [AndroidManifest.version_code, hc]; rfl
  · rw [AndroidManifest.version_name, hn]; rfl

/-- C3 witness: a manifest whose root element carries no attributes at all. -/
theorem accessors_default_fallbacks_witness :
    ({ path := ["AndroidManifest.xml"],
       root := XElem.mk "manifest" [] XForest.nil } : AndroidManifest).package
        = "unknown" ∧
    ({ path := ["AndroidManifest.xml"],
       root := XElem.mk "manifest" [] XForest.nil } : AndroidManifest).version_code
        = "0" ∧
    ({ path := ["AndroidManifest.xml"],
       root := XElem.mk "manifest" [] XForest.nil } : AndroidManifest).version_name
        = "0.0" :=
  accessors_default_fallbacks _ rfl rfl rfl

/-! ## Lemmas about `splitDot` and name derivation -/

theorem splitDot_ne_nil (l : List Char) : splitDot l ≠ [] := by
  cases l with
  | nil => simp [splitDot]
  | cons c rest =>
    by_cases hc : c = '.'
    · simp [splitDot, hc]
    · cases hs : splitDot rest with
      | nil => simp [splitDot, hc, hs]
      | cons seg segs => simp [splitDot, hc, hs]

theorem splitDot_no_dot (l : List Char) (h : '.' ∉ l) : splitDot l = [l] := by
  induction l with
  | nil => rfl
  | cons c rest ih =>
    have hc : ¬ (c = '.') := fun hh => h (hh ▸ List.mem_cons_self c rest)
    have hr : '.' ∉ rest := fun hh => h (List.mem_cons_of_mem c hh)
    simp [splitDot, hc, ih hr]

theorem splitDot_length_of_dot (l : List Char) (h : '.' ∈ l) :
    2 ≤ (splitDot l).length := by
  induction l with
  | nil => cases h
  | cons c rest ih =>
    by_cases hc : c = '.'
    · subst hc
      have hlen : 1 ≤ (splitDot rest).length := by
        cases hs : splitDot rest with
        | nil => exact absurd hs (splitDot_ne_nil rest)
        | cons a t => simp
      have hsplit : splitDot ('.' :: rest) = [] :: splitDot rest := by
        simp [splitDot]
      rw [hsplit, List.length_cons]
      omega
    · have hr : '.' ∈ rest := by
        cases List.mem_cons.mp h with
        | inl hh => exact absurd hh.symm hc
        | inr hh => exact hh
      have h2 := ih hr
      cases hs : splitDot rest with
      | nil => exact absurd hs (splitDot_ne_nil rest)
      | cons seg segs =>
        rw [hs] at h2
        simp only [splitDot, if_neg hc, hs, List.length_cons] at h2 ⊢
        omega

theorem getLast?_cons_of_ne {α : Type} (x : α) (t : List α) (h : t ≠ []) :
    (x :: t).getLast? = t.getLast? := by
  cases t with
  | nil => exact absurd rfl h
  | cons b t' => simp [List.getLast?_cons_cons]

theorem takeWhile_append_last_false {α : Type} (p : α → Bool) (A : List α)
    (c : α) (h : p c = false) :
    (A ++ [c]).takeWhile p = A.takeWhile p := by
  induction A with
  | nil => simp [List.takeWhile, h]
  | cons x A' ih =>
    cases hpx : p x with
    | true => simp [List.takeWhile, hpx, ih]
    | false => simp [List.takeWhile, hpx]

theorem takeWhile_append_of_mem_false {α : Type} (p : α → Bool) (A B : List α)
    (a : α) (ha : a ∈ A) (h : p a = false) :
    (A ++ B).takeWhile p = A.takeWhile p := by
  induction A with
  | nil => cases ha
  | cons x A' ih =>
    cases hpx : p x with
    | true =>
      have ha' : a ∈ A' := by
        cases List.mem_cons.mp ha with
        | inl hh => rw [hh] at h; rw [h] at hpx; cases hpx
        | inr hh => exact hh
      simp [List.takeWhile, hpx, ih ha']
    | false => simp [List.takeWhile, hpx]

theorem takeWhile_append_of_all_true {α : Type} (p : α → Bool) (A B : List α)
    (h : ∀ a ∈ A, p a = true) :
    (A ++ B).takeWhile p = A ++ B.takeWhile p := by
  induction A with
  | nil => simp
  | cons x A' ih =>
    have hx : p x = true := h x (List.mem_cons_self x A')
    have h' : ∀ a ∈ A', p a = true := fun a ha => h a (List.mem_cons_of_mem x ha)
    simp [List.takeWhile, hx, ih h']

theorem lastDotSegment_eq_spec (l : List Char) :
    lastDotSegment l = specLastSegment l := by
  induction l with
  | nil => rfl
  | cons c rest ih =>
    have hdot : (fun c : Char => decide (¬ (c = '.'))) '.' = false := by simp
    by_cases hc : c = '.'
    · subst hc
      have hsplit : splitDot ('.' :: rest) = [] :: splitDot rest := by
        simp [splitDot]
      unfold lastDotSegment specLastSegment at ih ⊢
      rw [hsplit, getLast?_cons_of_ne [] (splitDot rest) (splitDot_ne_nil rest),
        List.reverse_cons,
        takeWhile_append_last_false (fun c : Char => decide (¬ (c = '.')))
          rest.reverse '.' hdot]
      exact ih
    · have hpc : (fun c : Char => decide (¬ (c = '.'))) c = true := by simp [hc]
      by_cases hd : '.' ∈ rest
      · obtain ⟨seg, segs, hs⟩ : ∃ seg segs, splitDot rest = seg :: segs := by
          cases hs : splitDot rest with
          | nil => exact absurd hs (splitDot_ne_nil rest)
          | cons a t => exact ⟨a, t, rfl⟩
        have hsegs : segs ≠ [] := by
          have h2 := splitDot_length_of_dot rest hd
          rw [hs] at h2
          cases segs with
          | nil => simp at h2
          | cons u v => simp
        have hsplit : splitDot (c :: rest) = (c :: seg) :: segs := by
          simp [splitDot, hc, hs]
        have hdotr : '.' ∈ rest.reverse := List.mem_reverse.mpr hd
        have hlast : segs.getLast? = (splitDot rest).getLast? := by
          rw [hs, getLast?_cons_of_ne seg segs hsegs]
        unfold lastDotSegment specLastSegment at ih ⊢
        rw [hsplit, getLast?_cons_of_ne (c :: seg) segs hsegs, hlast,
          List.reverse_cons,
          takeWhile_append_of_mem_false (fun c : Char => decide (¬ (c = '.')))
            rest.reverse [c] '.' hdotr hdot]
        exact ih
      · have hall : ∀ a ∈ rest.reverse,
            (fun c : Char => decide (¬ (c = '.'))) a = true := by
          intro a ha
          have : a ∈ rest := List.mem_reverse.mp ha
          simp only [decide_eq_true_eq]
          intro hh
          exact hd (hh ▸ this)
        have hsplit : splitDot (c :: rest) = [c :: rest] := by
          simp [splitDot, hc, splitDot_no_dot rest hd]
        unfold lastDotSegment specLastSegment
        rw [hsplit, List.reverse_cons,
          takeWhile_append_of_all_true (fun c : Char => decide (¬ (c = '.')))
            rest.reverse [c] hall]
        simp [List.takeWhile, hpc]

theorem titleCase_tail (n : Nat) (cs : List Char) :
    (List.enumFrom (n + 1) cs).map
      (fun ic => if ic.1 = 0 then ic.2.toUpper else ic.2.toLower) =
    cs.map Char.toLower := by
  induction cs generalizing n with
  | nil => rfl
  | cons c cs' ih =>
    have hne : ¬ (n + 1 = 0) := Nat.succ_ne_zero n
    simp only [List.enumFrom, List.map_cons, if_neg hne, ih (n + 1)]

theorem titleCase_eq_spec (l : List Char) :
    titleCase l = upperFirstLowerRest l := by
  cases l with
  | nil => rfl
  | cons c cs =>
    show (List.enumFrom 0 (c :: cs)).map _ = _
    simp only [List.enumFrom, List.map_cons, if_pos rfl, upperFirstLowerRest]
    exact congrArg _ (titleCase_tail 0 cs)

/-- C9 — `name()` is total: `rsplit('.')` always yields at least one
(possibly empty) segment, for every input including the empty string, so the
internal `unwrap` (the `.getD []` default in `lastDotSegment`) is
unreachable. -/
theorem name_unwrap_unreachable (s : String) :
    ((splitDot s.data).getLast?).isSome = true := by
  simp [List.getLast?_isSome, splitDot_ne_nil s.data]

/-- C2 — `name()` equals the spec's derivation for every package value: take
the package string (or `"unknown"` when absent), take the final dot-delimited
segment, upper-case its first character and lower-case the rest; in
particular `"com.example.myapp"` yields `"Myapp"`, an absent package yields
`"Unknown"`, and `"widgetco"` yields `"Widgetco"`. -/
theorem name_matches_spec_derivation :
    (∀ m : AndroidManifest,
      m.name = specName (m.root.get_attr (none, "package"))) ∧
    (manifestWithPackage (some "com.example.myapp")).name = "Myapp" ∧
    (manifestWithPackage none).name = "Unknown" ∧
    (manifestWithPackage (some "widgetco")).name = "Widgetco" := by
  have hname : ∀ pkg : Option String, deriveName pkg = specName pkg := by
    intro pkg
    unfold deriveName specName
    rw [titleCase_eq_spec, lastDotSegment_eq_spec]
  refine ⟨fun m => hname _, ?_, ?_, ?_⟩
  · rfl
  · rfl
  · rfl

/-! ## Error handling and I/O order of the merge operation -/

theorem dumpWritePhase_ok (w : DumpWorld) (p : FsPath) (uuids : List String)
    (props : Props) (effs : List FsEffect)
    (hdir : w.createDirResult = .ok ()) (hfile : w.createFileResult = .ok ())
    (hw : w.writeOk = true) :
    (dumpWritePhase w p uuids props effs).1 = .ok () := by
  unfold dumpWritePhase
  cases hp : p.parent? <;> simp [hdir, hfile, hw]

theorem dumpWritePhase_trace (w : DumpWorld) (p : FsPath) (uuids : List String)
    (props : Props) (effs : List FsEffect) (par : FsPath)
    (hpar : p.parent? = some par)
    (hok : (dumpWritePhase w p uuids props effs).1 = .ok ()) :
    (dumpWritePhase w p uuids props effs).2 =
      effs ++ [FsEffect.createDirAll par, FsEffect.createFile p,
        FsEffect.writeProps p (serializeProps (mergedProps props uuids))] := by
  unfold dumpWritePhase at hok ⊢
  rw [hpar] at hok ⊢
  cases hdir : w.createDirResult with
  | error e => simp [hdir] at hok
  | ok u =>
    cases hfile : w.createFileResult with
    | error e => simp [hdir, hfile] at hok
    | ok u' =>
      cases hw : w.writeOk with
      | false => simp [hdir, hfile, hw] at hok
      | true => simp [hdir, hfile, hw]

/-- C4 — The merge is lenient in both documented cases: when the properties
file does not exist (`NotFound`) or exists but fails to parse, the operation
proceeds exactly as with an empty prior mapping, and succeeds whenever the
subsequent writes succeed (neither case is surfaced as an error). -/
theorem dump_lenient_on_missing_or_malformed (w : DumpWorld) (p : FsPath)
    (uuids : List String)
    (h : w.openResult = .error IOErrorKind.notFound ∨
      ∃ e, w.openResult = .ok (.error e)) :
    dump_proguard_uuids_as_properties w p uuids =
      dumpWritePhase w p uuids [] [FsEffect.openFile p] ∧
    (w.createDirResult = .ok () → w.createFileResult = .ok () →
      w.writeOk = true →
      (dump_proguard_uuids_as_properties w p uuids).1 = .ok ()) := by
  have heq : dump_proguard_uuids_as_properties w p uuids =
      dumpWritePhase w p uuids [] [FsEffect.openFile p] := by
    cases h with
    | inl hnf => simp [dump_proguard_uuids_as_properties, hnf]
    | inr hmal =>
      obtain ⟨e, he⟩ := hmal
      simp [dump_proguard_uuids_as_properties, he]
  refine ⟨heq, fun hdir hfile hw => ?_⟩
  rw [heq]
  exact dumpWritePhase_ok w p uuids [] _ hdir hfile hw

/-- C4 witness: merging identifier `"u"` with a missing properties file and
successful directory/file writes succeeds. -/
theorem dump_lenient_on_missing_or_malformed_witness :
    (dump_proguard_uuids_as_properties
      ⟨.error IOErrorKind.notFound, .ok (), .ok (), true⟩
      ["dir", "sentry.properties"] ["u"]).1 = .ok () :=
  (dump_lenient_on_missing_or_malformed
    ⟨.error IOErrorKind.notFound, .ok (), .ok (), true⟩
    ["dir", "sentry.properties"] ["u"] (Or.inl rfl)).2 rfl rfl rfl

/-- C5 — When opening the existing properties file fails with any error kind
other than `NotFound`, that failure is returned as an `IoError`: the only
file-system call performed is the open, so nothing is written. -/
theorem dump_propagates_open_error (w : DumpWorld) (p : FsPath)
    (uuids : List String) (e : IOErrorKind)
    (he : w.openResult = .error e) (hne : e ≠ IOErrorKind.notFound) :
    dump_proguard_uuids_as_properties w p uuids =
      (.error (.ioError e), [FsEffect.openFile p]) ∧
    ∀ q c, FsEffect.writeProps q c ∉
      (dump_proguard_uuids_as_properties w p uuids).2 := by
  have heq : dump_proguard_uuids_as_properties w p uuids =
      (.error (.ioError e), [FsEffect.openFile p]) := by
    simp [dump_proguard_uuids_as_properties, he, hne]
  refine ⟨heq, fun q c => ?_⟩
  rw [heq]
  simp

/-- C5 witness: a permission-denied open is propagated as an `IoError` and
nothing is written. -/
theorem dump_propagates_open_error_witness :
    dump_proguard_uuids_as_properties
      ⟨.error IOErrorKind.permissionDenied, .ok (), .ok (), true⟩
      ["dir", "sentry.properties"] ["u"] =
    (.error (.ioError IOErrorKind.permissionDenied),
      [FsEffect.openFile ["dir", "sentry.properties"]]) :=
  (dump_propagates_open_error
    ⟨.error IOErrorKind.permissionDenied, .ok (), .ok (), true⟩
    ["dir", "sentry.properties"] ["u"] IOErrorKind.permissionDenied rfl
    (by decide)).1

/-- C8 — On every successful merge whose target path has a parent, the
parent directory is created (`create_dir_all`) before the file is created
and written; by contrast `AndroidManifest::save` never creates a directory
and returns the creation failure as an `IoError` when `fs::File::create`
fails (for example because intermediate directories are missing). -/
theorem dump_creates_parent_save_does_not :
    (∀ (w : DumpWorld) (p : FsPath) (uuids : List String) (par : FsPath),
      p.parent? = some par →
      (dump_proguard_uuids_as_properties w p uuids).1 = .ok () →
      (dump_proguard_uuids_as_properties w p uuids).2 =
        [FsEffect.openFile p, FsEffect.createDirAll par, FsEffect.createFile p,
          FsEffect.writeProps p
            (serializeProps (mergedProps (loadedProps w) uuids))]) ∧
    (∀ (sw : SaveWorld) (m : AndroidManifest) (q : FsPath),
      FsEffect.createDirAll q ∉ (m.save sw).2) ∧
    (∀ (sw : SaveWorld) (m : AndroidManifest) (e : IOErrorKind),
      sw.createFileResult = .error e → (m.save sw).1 = .error (.ioError e)) := by
  refine ⟨?_, ?_, ?_⟩
  · intro w p uuids par hpar hok
    cases hop : w.openResult with
    | ok parsed =>
      cases parsed with
      | ok mp =>
        have hd : dump_proguard_uuids_as_properties w p uuids =
            dumpWritePhase w p uuids mp [FsEffect.openFile p] := by
          simp [dump_proguard_uuids_as_properties, hop]
        have hl : loadedProps w = mp := by simp [loadedProps, hop]
        rw [hd] at hok ⊢
        rw [hl]
        exact dumpWritePhase_trace w p uuids mp _ par hpar hok
      | error pe =>
        have hd : dump_proguard_uuids_as_properties w p uuids =
            dumpWritePhase w p uuids [] [FsEffect.openFile p] := by
          simp [dump_proguard_uuids_as_properties, hop]
        have hl : loadedProps w = [] := by simp [loadedProps, hop]
        rw [hd] at hok ⊢
        rw [hl]
        exact dumpWritePhase_trace w p uuids [] _ par hpar hok
    | error err =>
      by_cases hnf : err = IOErrorKind.notFound
      · subst hnf
        have hd : dump_proguard_uuids_as_properties w p uuids =
            dumpWritePhase w p uuids [] [FsEffect.openFile p] := by
          simp [dump_proguard_uuids_as_properties, hop]
        have hl : loadedProps w = [] := by simp [loadedProps, hop]
        rw [hd] at hok ⊢
        rw [hl]
        exact dumpWritePhase_trace w p uuids [] _ par hpar hok
      · have hbad : (dump_proguard_uuids_as_properties w p uuids).1 =
            .error (.ioError err) := by
          simp [dump_proguard_uuids_as_properties, hop, hnf]
        rw [hbad] at hok
        cases hok
  · intro sw m q
    unfold AndroidManifest.save
    cases hc : sw.createFileResult with
    | error e => simp
    | ok u =>
      cases hw : sw.writeOk with
      | false => simp
      | true => simp
  · intro sw m e hce
    simp [AndroidManifest.save, hce]

/-- C8 witness: a concrete successful merge into `dir/sentry.properties`
creates `dir` before creating and writing the file, while a concrete failed
`save()` performs no directory creation and surfaces the `IoError`. -/
theorem dump_creates_parent_save_does_not_witness :
    (dump_proguard_uuids_as_properties
        ⟨.error IOErrorKind.notFound, .ok (), .ok (), true⟩
        ["dir", "sentry.properties"] ["u"]).2 =
      [FsEffect.openFile ["dir", "sentry.properties"],
        FsEffect.createDirAll ["dir"],
        FsEffect.createFile ["dir", "sentry.properties"],
        FsEffect.writeProps ["dir", "sentry.properties"]
          (serializeProps (mergedProps
            (loadedProps ⟨.error IOErrorKind.notFound, .ok (), .ok (), true⟩)
            ["u"]))] ∧
    FsEffect.createDirAll ["dir"] ∉
      ((manifestWithPackage none).save ⟨.error IOErrorKind.notFound, true⟩).2 ∧
    ((manifestWithPackage none).save ⟨.error IOErrorKind.notFound, true⟩).1 =
      .error (.ioError IOErrorKind.notFound) :=
  ⟨dump_creates_parent_save_does_not.1
      ⟨.error IOErrorKind.notFound, .ok (), .ok (), true⟩
      ["dir", "sentry.properties"] ["u"] ["dir"] rfl rfl,
    dump_creates_parent_save_does_not.2.1
      ⟨.error IOErrorKind.notFound, true⟩ (manifestWithPackage none) ["dir"],
    dump_creates_parent_save_does_not.2.2
      ⟨.error IOErrorKind.notFound, true⟩ (manifestWithPackage none)
      IOErrorKind.notFound rfl⟩

/-! ## The save/reload round-trip -/

theorem one_le_sizeElem (e : XElem) : 1 ≤ sizeElem e := by
  cases e with
  | mk t a cs => simp [sizeElem]

theorem one_le_sizeForest (f : XForest) : 1 ≤ sizeForest f := by
  cases f with
  | nil => simp [sizeForest]
  | cons e r =>
    have := one_le_sizeElem e
    simp [sizeForest]
    omega

theorem parse_ser_aux (n : Nat) :
    (∀ (e : XElem) (rest : List XmlToken), sizeElem e ≤ n →
      parseElem n (serElem e ++ rest) = some (e, rest)) ∧
    (∀ (f : XForest) (rest : List XmlToken), sizeForest f ≤ n →
      parseForest n (serForest f ++ XmlToken.close :: rest) = some (f, rest)) := by
  induction n with
  | zero =>
    constructor
    · intro e rest h
      have := one_le_sizeElem e
      omega
    · intro f rest h
      have := one_le_sizeForest f
      omega
  | succ n ih =>
    obtain ⟨ihe, ihf⟩ := ih
    constructor
    · intro e rest h
      cases e with
      | mk t a cs =>
        have hcs : sizeForest cs ≤ n := by
          simp [sizeElem] at h
          omega
        have hser : serElem (.mk t a cs) ++ rest =
            XmlToken.start t a :: (serForest cs ++ XmlToken.close :: rest) := by
          simp [serElem]
        rw [hser]
        simp [parseElem, ihf cs rest hcs]
    · intro f rest h
      cases f with
      | nil =>
        simp [serForest, parseForest]
      | cons e r =>
        cases e with
        | mk t a cs =>
          have h1 := one_le_sizeForest r
          have h2 := one_le_sizeForest cs
          have hsz : sizeForest (XForest.cons (.mk t a cs) r) =
              (1 + sizeForest cs) + sizeForest r := by
            simp [sizeForest, sizeElem]
          have he : sizeElem (XElem.mk t a cs) ≤ n := by
            rw [hsz] at h
            simp [sizeElem]
            omega
          have hr : sizeForest r ≤ n := by
            rw [hsz] at h
            omega
          have hpe := ihe (.mk t a cs) (serForest r ++ XmlToken.close :: rest) he
          have hserE : serElem (XElem.mk t a cs) ++
              (serForest r ++ XmlToken.close :: rest) =
              XmlToken.start t a ::
                (serForest cs ++ XmlToken.close ::
                  (serForest r ++ XmlToken.close :: rest)) := by
            simp [serElem]
          rw [hserE] at hpe
          have hserF : serForest (XForest.cons (.mk t a cs) r) ++
              XmlToken.close :: rest =
              XmlToken.start t a ::
                (serForest cs ++ XmlToken.close ::
                  (serForest r ++ XmlToken.close :: rest)) := by
            simp [serForest, serElem]
          rw [hserF]
          simp [parseForest, hpe, ihf r rest hr]

mutual

theorem sizeElem_le_serLength : ∀ e : XElem, sizeElem e ≤ (serElem e).length
  | .mk t a cs => by
    have h := sizeForest_le_serLength cs
    simp [sizeElem, serElem, List.length_append]
    omega

theorem sizeForest_le_serLength :
    ∀ f : XForest, sizeForest f ≤ (serForest f).length + 1
  | .nil => by simp [sizeForest, serForest]
  | .cons e r => by
    have h1 := sizeElem_le_serLength e
    have h2 := sizeForest_le_serLength r
    simp [sizeForest, serForest, List.length_append]
    omega

end

theorem parseDoc_serElem (e : XElem) : parseDoc (serElem e) = some e := by
  have hsz : sizeElem e ≤ (serElem e).length + 1 :=
    Nat.le_trans (sizeElem_le_serLength e) (Nat.le_succ _)
  have h := (parse_ser_aux ((serElem e).length + 1)).1 e [] hsz
  rw [List.append_nil] at h
  simp [parseDoc, h]

/-- C6 — Saving a loaded manifest without mutating the tree and reloading
from the written stream yields a manifest whose `package()`, `versionCode()`
and `versionName()` values are unchanged (the serialized form is re-parsed;
only the attribute values are promised, and indeed the whole root element
round-trips). -/
theorem save_reload_preserves_accessors (m : AndroidManifest) :
    ∃ m' : AndroidManifest, reloadAfterSave m = some m' ∧
      m'.package = m.package ∧
      m'.version_code = m.version_code ∧
      m'.version_name = m.version_name := by
  refine ⟨{ path := m.path, root := m.root }, ?_, rfl, rfl, rfl⟩
  simp [reloadAfterSave, parseDoc_serElem]

/-! ## Determinism of the properties write -/

theorem lookupProp_eq_some_iff (l : Props) (k v : String)
    (h : (l.map (fun kv => kv.1)).Nodup) :
    lookupProp l k = some v ↔ (k, v) ∈ l := by
  induction l with
  | nil => simp [lookupProp]
  | cons a t ih =>
    rw [List.map_cons, List.nodup_cons] at h
    obtain ⟨hkey, htail⟩ := h
    by_cases ha : a.1 = k
    · have hfind : lookupProp (a :: t) k = some a.2 := by
        unfold lookupProp
        rw [List.find?_cons_of_pos t (by simp [ha])]
        rfl
      rw [hfind]
      constructor
      · intro hv
        have hv' : v = a.2 := by
          cases hv
          rfl
        rw [hv', ← ha]
        exact List.mem_cons_self a t
      · intro hm
        cases List.mem_cons.mp hm with
        | inl hh =>
          rw [← hh]
        | inr hh =>
          have : k ∈ t.map (fun kv => kv.1) :=
            List.mem_map.mpr ⟨(k, v), hh, rfl⟩
          rw [ha] at hkey
          exact absurd this hkey
    · have hfind : lookupProp (a :: t) k = lookupProp t k := by
        unfold lookupProp
        rw [List.find?_cons_of_neg t (by simp [ha])]
      rw [hfind]
      rw [ih htail]
      constructor
      · intro hm
        exact List.mem_cons_of_mem a hm
      · intro hm
        cases List.mem_cons.mp hm with
        | inl hh =>
          exact absurd (congrArg Prod.fst hh).symm ha
        | inr hh => exact hh

theorem lookupProp_eq_none_iff (l : Props) (k : String) :
    lookupProp l k = none ↔ k ∉ l.map (fun kv => kv.1) := by
  induction l with
  | nil => simp [lookupProp]
  | cons a t ih =>
    by_cases ha : a.1 = k
    · have hfind : lookupProp (a :: t) k = some a.2 := by
        unfold lookupProp
        rw [List.find?_cons_of_pos t (by simp [ha])]
        rfl
      rw [hfind]
      simp [ha]
    · have hfind : lookupProp (a :: t) k = lookupProp t k := by
        unfold lookupProp
        rw [List.find?_cons_of_neg t (by simp [ha])]
      rw [hfind, ih]
      simp only [List.map_cons, List.mem_cons]
      constructor
      · intro hnot hor
        cases hor with
        | inl hh => exact ha hh.symm
        | inr hh => exact hnot hh
      · intro hnot hmem
        exact hnot (Or.inr hmem)

theorem lookupProp_perm (l₁ l₂ : Props)
    (hn : (l₁.map (fun kv => kv.1)).Nodup) (hp : l₁.Perm l₂) (k : String) :
    lookupProp l₁ k = lookupProp l₂ k := by
  have hn₂ : (l₂.map (fun kv => kv.1)).Nodup :=
    ((hp.map (fun kv => kv.1)).nodup_iff).mp hn
  cases hl : lookupProp l₁ k with
  | some v =>
    have hm : (k, v) ∈ l₁ := (lookupProp_eq_some_iff l₁ k v hn).mp hl
    exact ((lookupProp_eq_some_iff l₂ k v hn₂).mpr (hp.mem_iff.mp hm)).symm
  | none =>
    have hm := (lookupProp_eq_none_iff l₁ k).mp hl
    have hm₂ : k ∉ l₂.map (fun kv => kv.1) := fun hin =>
      hm (((hp.map (fun kv => kv.1)).mem_iff).mpr hin)
    exact ((lookupProp_eq_none_iff l₂ k).mpr hm₂).symm

theorem serializeProps_perm (l₁ l₂ : Props)
    (hn : (l₁.map (fun kv => kv.1)).Nodup) (hp : l₁.Perm l₂) :
    serializeProps l₁ = serializeProps l₂ := by
  have hperm :
      (List.insertionSort (fun a b : String => a ≤ b)
        (l₁.map (fun kv => kv.1)).dedup).Perm
      (List.insertionSort (fun a b : String => a ≤ b)
        (l₂.map (fun kv => kv.1)).dedup) :=
    (List.perm_insertionSort _ _).trans
      (((hp.map (fun kv => kv.1)).dedup).trans
        (List.perm_insertionSort _ _).symm)
  have hkeys := List.eq_of_perm_of_sorted hperm
    (List.sorted_insertionSort _ _) (List.sorted_insertionSort _ _)
  unfold serializeProps
  rw [hkeys]
  have hfun : (fun k => k ++ "=" ++ (lookupProp l₁ k).getD "") =
      (fun k => k ++ "=" ++ (lookupProp l₂ k).getD "") := by
    funext k
    rw [lookupProp_perm l₁ l₂ hn hp k]
  rw [hfun]

theorem mergedProps_perm (l₁ l₂ : Props) (uuids : List String)
    (hp : l₁.Perm l₂) :
    (mergedProps l₁ uuids).Perm (mergedProps l₂ uuids) := by
  unfold mergedProps insertProp
  exact (hp.filter _).cons _

theorem mergedProps_nodup_keys (l : Props) (uuids : List String)
    (hn : (l.map (fun kv => kv.1)).Nodup) :
    ((mergedProps l uuids).map (fun kv => kv.1)).Nodup := by
  unfold mergedProps insertProp
  rw [List.map_cons, List.nodup_cons]
  constructor
  · intro hmem
    obtain ⟨kv, hkv, hkeq⟩ := List.mem_map.mp hmem
    have := List.of_mem_filter hkv
    simp only [decide_eq_true_eq] at this
    exact this hkeq
  · exact hn.sublist ((List.filter_sublist l).map (fun kv => kv.1))

theorem dumpWritePhase_trace_noparent (w : DumpWorld) (p : FsPath)
    (uuids : List String) (props : Props) (effs : List FsEffect)
    (hpar : p.parent? = none)
    (hok : (dumpWritePhase w p uuids props effs).1 = .ok ()) :
    (dumpWritePhase w p uuids props effs).2 =
      effs ++ [FsEffect.createFile p,
        FsEffect.writeProps p (serializeProps (mergedProps props uuids))] := by
  unfold dumpWritePhase at hok ⊢
  rw [hpar] at hok ⊢
  cases hfile : w.createFileResult with
  | error e => simp [hfile] at hok
  | ok u =>
    cases hw : w.writeOk with
    | false => simp [hfile, hw] at hok
    | true => simp [hfile, hw]

/-- C7 — The merge-and-write is deterministic: two runs over the same target
path and identifiers, whose reads of the existing file produce the same
mapping (up to the in-memory enumeration order of the hash map) and whose
file-system calls succeed, perform identical file-system call traces — in
particular they write byte-identical file content. -/
theorem dump_write_deterministic (w₁ w₂ : DumpWorld) (p : FsPath)
    (uuids : List String) (m₁ m₂ : Props)
    (h₁ : w₁.openResult = .ok (.ok m₁))
    (h₂ : w₂.openResult = .ok (.ok m₂))
    (hn : (m₁.map (fun kv => kv.1)).Nodup)
    (hp : m₁.Perm m₂)
    (hdir₁ : w₁.createDirResult = .ok ())
    (hfile₁ : w₁.createFileResult = .ok ())
    (hwr₁ : w₁.writeOk = true)
    (hdir₂ : w₂.createDirResult = .ok ())
    (hfile₂ : w₂.createFileResult = .ok ())
    (hwr₂ : w₂.writeOk = true) :
    (dump_proguard_uuids_as_properties w₁ p uuids).2 =
      (dump_proguard_uuids_as_properties w₂ p uuids).2 := by
  have hd₁ : dump_proguard_uuids_as_properties w₁ p uuids =
      dumpWritePhase w₁ p uuids m₁ [FsEffect.openFile p] := by
    simp [dump_proguard_uuids_as_properties, h₁]
  have hd₂ : dump_proguard_uuids_as_properties w₂ p uuids =
      dumpWritePhase w₂ p uuids m₂ [FsEffect.openFile p] := by
    simp [dump_proguard_uuids_as_properties, h₂]
  have hok₁ := dumpWritePhase_ok w₁ p uuids m₁ [FsEffect.openFile p]
    hdir₁ hfile₁ hwr₁
  have hok₂ := dumpWritePhase_ok w₂ p uuids m₂ [FsEffect.openFile p]
    hdir₂ hfile₂ hwr₂
  have hser : serializeProps (mergedProps m₁ uuids) =
      serializeProps (mergedProps m₂ uuids) :=
    serializeProps_perm _ _ (mergedProps_nodup_keys m₁ uuids hn)
      (mergedProps_perm m₁ m₂ uuids hp)
  rw [hd₁, hd₂]
  cases hpar : p.parent? with
  | some par =>
    rw [dumpWritePhase_trace w₁ p uuids m₁ _ par hpar hok₁,
      dumpWritePhase_trace w₂ p uuids m₂ _ par hpar hok₂, hser]
  | none =>
    rw [dumpWritePhase_trace_noparent w₁ p uuids m₁ _ hpar hok₁,
      dumpWritePhase_trace_noparent w₂ p uuids m₂ _ hpar hok₂, hser]

/-- C7 witness: two runs whose hash maps enumerate the same two prior
entries in opposite orders perform identical traces. -/
theorem dump_write_deterministic_witness :
    (dump_proguard_uuids_as_properties
        ⟨.ok (.ok [("a", "1"), ("b", "2")]), .ok (), .ok (), true⟩
        ["dir", "sentry.properties"] ["u"]).2 =
      (dump_proguard_uuids_as_properties
        ⟨.ok (.ok [("b", "2"), ("a", "1")]), .ok (), .ok (), true⟩
        ["dir", "sentry.properties"] ["u"]).2 :=
  dump_write_deterministic
    ⟨.ok (.ok [("a", "1"), ("b", "2")]), .ok (), .ok (), true⟩
    ⟨.ok (.ok [("b", "2"), ("a", "1")]), .ok (), .ok (), true⟩
    ["dir", "sentry.properties"] ["u"]
    [("a", "1"), ("b", "2")] [("b", "2"), ("a", "1")]
    rfl rfl (by decide) (by decide) rfl rfl rfl rfl rfl rfl

end SentryAndroid
